import Mathlib

/-!
Verification of the tango session-relay backend (`backend/main.go`,
`backend/utils.go`).

The Go program keeps a process-wide `InMemoryStore` with two maps,
`Sessions : map[string]*Session` and `Clients : map[string]*Client`,
guarded by one mutex.  We embed the store as association lists with
Go-map semantics (insert replaces, delete removes, lookup finds the
entry), and each HTTP/WebSocket handler as a pure function from store
to store plus the list of WebSocket sends it performs.  Sends are
recorded as `Delivery` values (recipient client id plus message);
closing a connection is recorded as the closed client's id.
-/

namespace Tango

/-- Association-list model of a Go `map[string]α`. -/
abbrev Map (α : Type) := List (String × α)

/-- `m[k]` lookup: first entry with the given key. -/
def mlookup {α : Type} : Map α → String → Option α
  | [], _ => none
  | (k', v) :: rest, k => if k' = k then some v else mlookup rest k

/-- `m[k] = v`: replace the entry if the key is present, else append. -/
def minsert {α : Type} : Map α → String → α → Map α
  | [], k, v => [(k, v)]
  | (k', v') :: rest, k, v =>
      if k' = k then (k, v) :: rest else (k', v') :: minsert rest k v

/-- `delete(m, k)`: remove every entry with the given key. -/
def merase {α : Type} : Map α → String → Map α
  | [], _ => []
  | (k', v') :: rest, k =>
      if k' = k then merase rest k else (k', v') :: merase rest k

/-- Delete a list of keys in order. -/
def meraseAll {α : Type} (m : Map α) (ks : List String) : Map α :=
  ks.foldl merase m

/-- Update the value stored at a key in place (used to model mutation
through the `*Session` pointer held in `store.Sessions`). -/
def madjust {α : Type} : Map α → String → (α → α) → Map α
  | [], _, _ => []
  | (k', v) :: rest, k, f =>
      if k' = k then (k', f v) :: madjust rest k f
      else (k', v) :: madjust rest k f

/-- The key list of a map. -/
def mkeys {α : Type} (m : Map α) : List String := m.map Prod.fst

theorem mlookup_minsert {α : Type} (m : Map α) (k : String) (v : α) (k' : String) :
    mlookup (minsert m k v) k' = if k = k' then some v else mlookup m k' := by
  induction m with
  | nil => simp [minsert, mlookup]
  | cons hd tl ih =>
      obtain ⟨k₀, v₀⟩ := hd
      by_cases h₀ : k₀ = k
      · subst h₀
        rw [minsert, if_pos rfl]
        by_cases h₁ : k₀ = k'
        · subst h₁; simp [mlookup]
        · simp [mlookup, h₁]
      · rw [minsert, if_neg h₀, mlookup, ih]
        by_cases h₁ : k₀ = k'
        · subst h₁
          simp [mlookup, Ne.symm h₀]
        · simp [mlookup, h₁]

theorem mlookup_merase {α : Type} (m : Map α) (k k' : String) :
    mlookup (merase m k) k' = if k = k' then none else mlookup m k' := by
  induction m with
  | nil => simp [merase, mlookup]
  | cons hd tl ih =>
      obtain ⟨k₀, v₀⟩ := hd
      by_cases h₀ : k₀ = k
      · subst h₀
        rw [merase, if_pos rfl, ih]
        by_cases h₁ : k₀ = k'
        · subst h₁; simp [mlookup]
        · simp [mlookup, h₁]
      · rw [merase, if_neg h₀, mlookup]
        by_cases h₁ : k₀ = k'
        · subst h₁
          simp [mlookup, Ne.symm h₀]
        · simp [mlookup, h₁, ih]

theorem mlookup_meraseAll {α : Type} (m : Map α) (ks : List String) (k : String) :
    mlookup (meraseAll m ks) k = if k ∈ ks then none else mlookup m k := by
  induction ks generalizing m with
  | nil => simp [meraseAll]
  | cons hd tl ih =>
      rw [meraseAll, List.foldl_cons,
        show List.foldl merase (merase m hd) tl = meraseAll (merase m hd) tl from rfl,
        ih]
      by_cases h₁ : k ∈ tl
      · simp [h₁]
      · by_cases h₀ : hd = k
        · subst h₀; simp [h₁, mlookup_merase]
        · simp [h₁, mlookup_merase, h₀, Ne.symm h₀]

theorem mlookup_madjust {α : Type} (m : Map α) (k : String) (f : α → α) (k' : String) :
    mlookup (madjust m k f) k' =
      if k = k' then (mlookup m k').map f else mlookup m k' := by
  induction m with
  | nil => simp [madjust, mlookup]
  | cons hd tl ih =>
      obtain ⟨k₀, v₀⟩ := hd
      by_cases h₀ : k₀ = k
      · subst h₀
        rw [madjust, if_pos rfl, mlookup]
        by_cases h₁ : k₀ = k'
        · subst h₁; simp [mlookup]
        · simp [mlookup, h₁, ih]
      · rw [madjust, if_neg h₀, mlookup]
        by_cases h₁ : k₀ = k'
        · subst h₁
          simp [mlookup, Ne.symm h₀]
        · simp [mlookup, h₁, ih]

/-- A present key is found by lookup. -/
theorem mlookup_isSome_of_mem_mkeys {α : Type} {m : Map α} {k : String}
    (h : k ∈ mkeys m) : ∃ v, mlookup m k = some v := by
  induction m with
  | nil => simp [mkeys] at h
  | cons hd tl ih =>
      obtain ⟨k₀, v₀⟩ := hd
      by_cases h₀ : k₀ = k
      · subst h₀; exact ⟨v₀, by simp [mlookup]⟩
      · rw [mkeys, List.map_cons, List.mem_cons] at h
        rcases h with h | h
        · exact absurd h.symm h₀
        · obtain ⟨v, hv⟩ := ih (by simpa [mkeys] using h)
          exact ⟨v, by simp [mlookup, h₀, hv]⟩

theorem mem_mkeys_of_mlookup {α : Type} {m : Map α} {k : String} {v : α}
    (h : mlookup m k = some v) : k ∈ mkeys m := by
  induction m with
  | nil => simp [mlookup] at h
  | cons hd tl ih =>
      obtain ⟨k₀, v₀⟩ := hd
      by_cases h₀ : k₀ = k
      · subst h₀; simp [mkeys]
      · rw [mlookup, if_neg h₀] at h
        rw [mkeys, List.map_cons, List.mem_cons]
        exact Or.inr (by simpa [mkeys] using ih h)

theorem mem_of_mlookup {α : Type} {m : Map α} {k : String} {v : α}
    (h : mlookup m k = some v) : (k, v) ∈ m := by
  induction m with
  | nil => simp [mlookup] at h
  | cons hd tl ih =>
      obtain ⟨k₀, v₀⟩ := hd
      by_cases h₀ : k₀ = k
      · subst h₀
        rw [mlookup, if_pos rfl] at h
        injection h with h
        simp [h]
      · rw [mlookup, if_neg h₀] at h
        exact List.mem_cons_of_mem _ (ih h)

theorem mlookup_of_mem_nodup {α : Type} {m : Map α} {k : String} {v : α}
    (hnd : (mkeys m).Nodup) (h : (k, v) ∈ m) : mlookup m k = some v := by
  induction m with
  | nil => simp at h
  | cons hd tl ih =>
      obtain ⟨k₀, v₀⟩ := hd
      rw [mkeys, List.map_cons, List.nodup_cons] at hnd
      rcases List.mem_cons.mp h with h | h
      · rw [Prod.mk.injEq] at h
        obtain ⟨h₁, h₂⟩ := h
        subst h₁; subst h₂
        simp [mlookup]
      · by_cases h₀ : k₀ = k
        · subst h₀
          exact absurd (List.mem_map_of_mem Prod.fst h) hnd.1
        · rw [mlookup, if_neg h₀]
          exact ih (by simpa [mkeys] using hnd.2) h

theorem mkeys_madjust {α : Type} (m : Map α) (k : String) (f : α → α) :
    mkeys (madjust m k f) = mkeys m := by
  induction m with
  | nil => rfl
  | cons hd tl ih =>
      obtain ⟨k₀, v₀⟩ := hd
      by_cases h₀ : k₀ = k <;>
        simp [madjust, mkeys, h₀] <;> simpa [mkeys] using ih

theorem mem_mkeys_minsert {α : Type} {m : Map α} {k : String} {v : α} {k' : String} :
    k' ∈ mkeys (minsert m k v) ↔ k' = k ∨ k' ∈ mkeys m := by
  induction m with
  | nil => simp [minsert, mkeys]
  | cons hd tl ih =>
      obtain ⟨k₀, v₀⟩ := hd
      by_cases h₀ : k₀ = k
      · subst h₀
        rw [minsert, if_pos rfl]
        simp [mkeys]
      · rw [minsert, if_neg h₀]
        rw [mkeys, List.map_cons, List.mem_cons]
        rw [mkeys, List.map_cons, List.mem_cons]
        constructor
        · rintro (h | h)
          · exact Or.inr (Or.inl h)
          · rcases ih.mp (by simpa [mkeys] using h) with h | h
            · exact Or.inl h
            · exact Or.inr (Or.inr h)
        · rintro (h | h | h)
          · exact Or.inr (ih.mpr (Or.inl h))
          · exact Or.inl h
          · exact Or.inr (ih.mpr (Or.inr h))

theorem nodup_mkeys_minsert {α : Type} {m : Map α} (k : String) (v : α)
    (h : (mkeys m).Nodup) : (mkeys (minsert m k v)).Nodup := by
  induction m with
  | nil => simp [minsert, mkeys]
  | cons hd tl ih =>
      obtain ⟨k₀, v₀⟩ := hd
      rw [mkeys, List.map_cons, List.nodup_cons] at h
      by_cases h₀ : k₀ = k
      · subst h₀
        rw [minsert, if_pos rfl, mkeys, List.map_cons, List.nodup_cons]
        exact ⟨h.1, h.2⟩
      · rw [minsert, if_neg h₀, mkeys, List.map_cons, List.nodup_cons]
        constructor
        · intro hmem
          rcases mem_mkeys_minsert.mp (by simpa [mkeys] using hmem) with h' | h'
          · exact h₀ h'
          · exact h.1 (by simpa [mkeys] using h')
        · exact ih (by simpa [mkeys] using h.2)

theorem mkeys_merase {α : Type} (m : Map α) (k : String) :
    mkeys (merase m k) = (mkeys m).filter (fun x => x ≠ k) := by
  induction m with
  | nil => rfl
  | cons hd tl ih =>
      obtain ⟨k₀, v₀⟩ := hd
      by_cases h₀ : k₀ = k
      · subst h₀
        rw [merase, if_pos rfl, ih]
        simp [mkeys]
      · rw [merase, if_neg h₀]
        rw [mkeys, List.map_cons]
        rw [mkeys, List.map_cons]
        rw [List.filter_cons]
        simp [h₀]
        simpa [mkeys] using ih

theorem nodup_mkeys_merase {α : Type} {m : Map α} (k : String)
    (h : (mkeys m).Nodup) : (mkeys (merase m k)).Nodup := by
  rw [mkeys_merase]
  exact h.filter _

theorem nodup_mkeys_meraseAll {α : Type} {m : Map α} (ks : List String)
    (h : (mkeys m).Nodup) : (mkeys (meraseAll m ks)).Nodup := by
  induction ks generalizing m with
  | nil => simpa [meraseAll]
  | cons hd tl ih =>
      rw [meraseAll, List.foldl_cons]
      exact ih (m := merase m hd) (nodup_mkeys_merase hd h)

/-! ## Data model (`main.go` types)

`Client.Conn` is always the freshly upgraded WebSocket in the source and
is only ever used to send (recorded as a `Delivery`) or to close
(recorded by returning the closed client's id), so the connection itself
carries no state in the model.  `Client.Name` is declared but never
assigned in the source, hence always `""`. -/

structure Client where
  id : String
  cname : String
  sessionId : String
deriving DecidableEq

structure Session where
  id : String
  sname : String
  createdAt : Int
  clients : Map Client
deriving DecidableEq

/-- `Message{Type, Payload}`; the payloads built by the source are
`gin.H` maps with string values, embedded as field lists. -/
structure Message where
  mtype : String
  payload : List (String × String)
deriving DecidableEq

/-- One attempted WebSocket send: `sendMessage(client.Conn, message)`
for the client with id `recipient`. -/
structure Delivery where
  recipient : String
  msg : Message
deriving DecidableEq

structure InMemoryStore where
  sessions : Map Session
  clients : Map Client
deriving DecidableEq

def NewInMemoryStore : InMemoryStore := ⟨[], []⟩

def sessionJoinedMsg (sessionID clientID : String) : Message :=
  ⟨"session_joined", [("sessionId", sessionID), ("clientId", clientID)]⟩

def clientJoinedMsg (clientID : String) : Message :=
  ⟨"client_joined", [("clientId", clientID)]⟩

def clientLeftMsg (clientID : String) : Message :=
  ⟨"client_left", [("clientId", clientID)]⟩

def screenDataMsg (clientID data : String) : Message :=
  ⟨"screen_data", [("clientId", clientID), ("data", data)]⟩

/-- `generateID` prefixes an 8-character random string; the random part
is passed in explicitly (the model's source of randomness). -/
def generateID (randomPart : String) : String := "id_" ++ randomPart

/-! ## Handlers -/

/-- `broadcastToSession`: look the session up afresh and attempt a send
to every member whose map key differs from `excludeClientID`. -/
def broadcastToSession (store : InMemoryStore) (sessionID : String)
    (message : Message) (excludeClientID : String) : List Delivery :=
  match mlookup store.sessions sessionID with
  | none => []
  | some session =>
      (session.clients.filter (fun p => p.1 ≠ excludeClientID)).map
        (fun p => ⟨p.1, message⟩)

inductive CreateResult where
  | badRequest
  | created (session : Session)
deriving DecidableEq

/-- `createSession`: 400 when binding fails (missing/empty `name`),
otherwise store a new session under the generated id.  `freshID` is the
value returned by `generateID` and `now` the current unix timestamp. -/
def createSession (store : InMemoryStore) (reqName : String)
    (freshID : String) (now : Int) : InMemoryStore × CreateResult :=
  if reqName = "" then (store, .badRequest)
  else
    let session : Session := ⟨freshID, reqName, now, []⟩
    (⟨minsert store.sessions freshID session, store.clients⟩, .created session)

inductive DeleteResult where
  | notFound
  | noContent
deriving DecidableEq

/-- `deleteSession`: 404 when the id is absent; otherwise close every
member's connection, delete each member from `store.Clients` (keyed by
`client.ID`), and delete the session.  The third component lists the
client ids whose connections were closed. -/
def deleteSession (store : InMemoryStore) (id : String) :
    InMemoryStore × DeleteResult × List String :=
  match mlookup store.sessions id with
  | none => (store, .notFound, [])
  | some session =>
      let closed := session.clients.map (fun p => p.2.id)
      (⟨merase store.sessions id, meraseAll store.clients closed⟩,
        .noContent, closed)

inductive JoinResult where
  | notFound
  | joined (client : Client)
deriving DecidableEq

/-- `handleWebSocket`: 404 (and no upgrade, hence no stream and no
deliveries) when the session id is absent; otherwise insert the new
client into both maps, send `session_joined` to it, and broadcast
`client_joined` to the other members.  `freshClientID` is the value
returned by `generateID`. -/
def handleWebSocket (store : InMemoryStore) (sessionID : String)
    (freshClientID : String) : InMemoryStore × JoinResult × List Delivery :=
  match mlookup store.sessions sessionID with
  | none => (store, .notFound, [])
  | some _ =>
      let client : Client := ⟨freshClientID, "", sessionID⟩
      let store1 : InMemoryStore :=
        ⟨madjust store.sessions sessionID
            (fun s => { s with clients := minsert s.clients freshClientID client }),
          minsert store.clients freshClientID client⟩
      (store1, .joined client,
        Delivery.mk freshClientID (sessionJoinedMsg sessionID freshClientID) ::
          broadcastToSession store1 sessionID (clientJoinedMsg freshClientID)
            freshClientID)

/-- The deferred block of `handleMessages`: close the client's
connection, delete it from `store.Clients` and from the session object
it joined (identified by its id), then broadcast `client_left` with no
exclusion. -/
def handleMessagesCleanup (store : InMemoryStore) (client : Client)
    (sessionID : String) : InMemoryStore × List Delivery × List String :=
  let store1 : InMemoryStore :=
    ⟨madjust store.sessions sessionID
        (fun s => { s with clients := merase s.clients client.id }),
      merase store.clients client.id⟩
  (store1, broadcastToSession store1 sessionID (clientLeftMsg client.id) "",
    [client.id])

/-- One iteration of the `handleMessages` read loop: wrap the raw bytes
in a `screen_data` event and broadcast it, excluding the sender. -/
def relayOnce (store : InMemoryStore) (client : Client) (sessionID : String)
    (data : String) : List Delivery :=
  broadcastToSession store sessionID (screenDataMsg client.id data) client.id

/-- The read loop over the messages successfully received before the
stream errored or closed (broadcasts never mutate the store). -/
def relayAll (store : InMemoryStore) (client : Client) (sessionID : String) :
    List String → List Delivery
  | [] => []
  | data :: rest =>
      relayOnce store client sessionID data ++ relayAll store client sessionID rest

/-- `handleMessages` in full: relay every received message, then (when
the loop terminates, on error or closure) run the deferred cleanup
exactly once. -/
def handleMessages (store : InMemoryStore) (client : Client)
    (sessionID : String) (inbound : List String) :
    InMemoryStore × List Delivery × List String :=
  let cleaned := handleMessagesCleanup store client sessionID
  (cleaned.1, relayAll store client sessionID inbound ++ cleaned.2.1, cleaned.2.2)

/-! ## Generic facts about lookup and about broadcast delivery lists -/

theorem mlookup_none_forall {α : Type} {m : Map α} {k : String}
    (h : mlookup m k = none) : ∀ q ∈ m, q.1 ≠ k := by
  induction m with
  | nil => simp
  | cons hd tl ih =>
      obtain ⟨k₀, v₀⟩ := hd
      by_cases h₀ : k₀ = k
      · subst h₀; simp [mlookup] at h
      · rw [mlookup, if_neg h₀] at h
        intro q hq
        rcases List.mem_cons.mp hq with rfl | hq
        · exact h₀
        · exact ih h q hq

theorem minsert_of_mlookup_none {α : Type} {m : Map α} {k : String}
    (h : mlookup m k = none) (v : α) : minsert m k v = m ++ [(k, v)] := by
  induction m with
  | nil => rfl
  | cons hd tl ih =>
      obtain ⟨k₀, v₀⟩ := hd
      by_cases h₀ : k₀ = k
      · subst h₀; simp [mlookup] at h
      · rw [mlookup, if_neg h₀] at h
        rw [minsert, if_neg h₀, ih h]
        simp

/-- Every delivery of a broadcast body carries the broadcast message,
goes to a member of the iterated map, and respects the exclusion. -/
theorem mem_deliveries {cs : Map Client} {msg : Message} {e : String} {d : Delivery}
    (hd : d ∈ (cs.filter (fun p => p.1 ≠ e)).map (fun p => Delivery.mk p.1 msg)) :
    d.msg = msg ∧ d.recipient ∈ mkeys cs ∧ d.recipient ≠ e := by
  rcases List.mem_map.mp hd with ⟨p, hp, rfl⟩
  rcases List.mem_filter.mp hp with ⟨hpm, hpe⟩
  refine ⟨rfl, ?_, ?_⟩
  · simpa [mkeys] using List.mem_map_of_mem Prod.fst hpm
  · simpa using hpe

theorem count_deliveries_zero {cs : Map Client} (msg : Message) {e k : String}
    (hk : k ∉ mkeys cs) :
    ((cs.filter (fun p => p.1 ≠ e)).map (fun p => Delivery.mk p.1 msg)).count
      (Delivery.mk k msg) = 0 := by
  rw [List.count_eq_zero]
  intro hmem
  exact hk (mem_deliveries hmem).2.1

/-- A non-excluded member of a no-dup map receives a broadcast exactly
once. -/
theorem count_deliveries_one {cs : Map Client} (msg : Message) {e k : String}
    (hnd : (mkeys cs).Nodup) (hk : k ∈ mkeys cs) (hke : k ≠ e) :
    ((cs.filter (fun p => p.1 ≠ e)).map (fun p => Delivery.mk p.1 msg)).count
      (Delivery.mk k msg) = 1 := by
  induction cs with
  | nil => simp [mkeys] at hk
  | cons hd tl ih =>
      obtain ⟨k₀, v₀⟩ := hd
      rw [mkeys, List.map_cons, List.nodup_cons] at hnd
      rw [mkeys, List.map_cons, List.mem_cons] at hk
      rw [List.filter_cons]
      by_cases h₀ : k₀ = e
      · rw [if_neg (by simpa using h₀)]
        rcases hk with hk | hk
        · exact absurd (hk.trans h₀) hke
        · exact ih (by simpa [mkeys] using hnd.2) hk
      · rw [if_pos (by simpa using h₀)]
        rw [List.map_cons]
        by_cases hkk : k = k₀
        · subst hkk
          rw [List.count_cons_self]
          rw [count_deliveries_zero msg (by simpa [mkeys] using hnd.1)]
        · rw [List.count_cons_of_ne (by simpa using hkk)]
          rcases hk with hk | hk
          · exact absurd hk hkk
          · exact ih (by simpa [mkeys] using hnd.2) hk

/-! ## Sequences of registry operations

The mutating operations the handlers perform on the store, applied
atomically (each runs under `store.mu` in the source).  A `leave` is the
deferred cleanup of the connection's read loop, invoked with the handle
created at join time: for a registered id that handle is the stored
entry; for an id already gone the deletes are no-ops on the registry. -/

inductive Op where
  | create (reqName freshID : String) (now : Int)
  | join (sessionID freshClientID : String)
  | leave (clientID : String)
  | delete (sessionID : String)
deriving DecidableEq

def stepState (st : InMemoryStore) : Op → InMemoryStore
  | .create n i t => (createSession st n i t).1
  | .join sid cid => (handleWebSocket st sid cid).1
  | .leave cid =>
      match mlookup st.clients cid with
      | none => st
      | some c => (handleMessagesCleanup st c c.sessionId).1
  | .delete sid => (deleteSession st sid).1

def runOps (ops : List Op) : InMemoryStore :=
  ops.foldl stepState NewInMemoryStore

/-- `generateID` draws 8 random characters; an id is usable only when it
does not collide with a key already in the relevant map. -/
def opFresh (st : InMemoryStore) : Op → Prop
  | .create _ i _ => mlookup st.sessions i = none
  | .join _ cid => mlookup st.clients cid = none
  | .leave _ => True
  | .delete _ => True

instance (st : InMemoryStore) (op : Op) : Decidable (opFresh st op) := by
  cases op <;> unfold opFresh <;> infer_instance

def runFresh : InMemoryStore → List Op → Prop
  | _, [] => True
  | st, op :: rest => opFresh st op ∧ runFresh (stepState st op) rest

def runFreshDec : (st : InMemoryStore) → (ops : List Op) → Decidable (runFresh st ops)
  | _, [] => .isTrue trivial
  | st, op :: rest =>
      match runFreshDec (stepState st op) rest with
      | .isTrue h =>
          match inferInstanceAs (Decidable (opFresh st op)) with
          | .isTrue h' => .isTrue ⟨h', h⟩
          | .isFalse h' => .isFalse (fun hc => h' hc.1)
      | .isFalse h => .isFalse (fun hc => h hc.2)

instance (st : InMemoryStore) (ops : List Op) : Decidable (runFresh st ops) :=
  runFreshDec st ops

/-! ## Registry well-formedness -/

/-- The participant map of session `sid` holds exactly the entries of
the global client index whose `SessionID` is `sid`, with the same
values. -/
def clientsMatch (g : Map Client) (sid : String) (s : Session) : Prop :=
  ∀ k c, mlookup s.clients k = some c ↔
    (mlookup g k = some c ∧ c.sessionId = sid)

structure WF (st : InMemoryStore) : Prop where
  ndS : (mkeys st.sessions).Nodup
  ndC : (mkeys st.clients).Nodup
  ndSC : ∀ sid s, mlookup st.sessions sid = some s → (mkeys s.clients).Nodup
  cidEq : ∀ k c, mlookup st.clients k = some c → c.id = k
  link : ∀ sid s, mlookup st.sessions sid = some s → clientsMatch st.clients sid s
  owner : ∀ k c, mlookup st.clients k = some c →
    ∃ s, mlookup st.sessions c.sessionId = some s

theorem WF_empty : WF NewInMemoryStore := by
  refine ⟨?_, ?_, ?_, ?_, ?_, ?_⟩ <;>
    simp [NewInMemoryStore, mkeys, mlookup, clientsMatch]

theorem WF_createSession {st : InMemoryStore} (hWF : WF st)
    (reqName freshID : String) (now : Int)
    (hfresh : mlookup st.sessions freshID = none) :
    WF (createSession st reqName freshID now).1 := by
  by_cases hname : reqName = ""
  · simpa [createSession, hname] using hWF
  · rw [createSession, if_neg hname]
    refine ⟨nodup_mkeys_minsert _ _ hWF.ndS, hWF.ndC, ?_, hWF.cidEq, ?_, ?_⟩
    · intro sid s hs
      rw [mlookup_minsert] at hs
      by_cases h : freshID = sid
      · rw [if_pos h] at hs
        injection hs with hs
        rw [← hs]
        simp [mkeys]
      · rw [if_neg h] at hs
        exact hWF.ndSC sid s hs
    · intro sid s hs
      rw [mlookup_minsert] at hs
      by_cases h : freshID = sid
      · rw [if_pos h] at hs
        injection hs with hs
        intro k c
        rw [← hs]
        simp only [mlookup]
        constructor
        · intro h'
          cases h'
        · rintro ⟨hg, hsid⟩
          obtain ⟨s', hs'⟩ := hWF.owner k c hg
          rw [hsid, ← h, hfresh] at hs'
          simp at hs'
      · rw [if_neg h] at hs
        exact hWF.link sid s hs
    · intro k c hg
      obtain ⟨s', hs'⟩ := hWF.owner k c hg
      rw [mlookup_minsert]
      by_cases h : freshID = c.sessionId
      · exact ⟨_, by rw [if_pos h]⟩
      · exact ⟨s', by rw [if_neg h]; exact hs'⟩

theorem WF_handleWebSocket {st : InMemoryStore} (hWF : WF st)
    (sessionID freshClientID : String)
    (hfresh : mlookup st.clients freshClientID = none) :
    WF (handleWebSocket st sessionID freshClientID).1 := by
  cases hs : mlookup st.sessions sessionID with
  | none => simpa [handleWebSocket, hs] using hWF
  | some s =>
      unfold handleWebSocket
      rw [hs]
      refine ⟨?_, nodup_mkeys_minsert _ _ hWF.ndC, ?_, ?_, ?_, ?_⟩
      · rw [mkeys_madjust]
        exact hWF.ndS
      · intro sid' s' hs'
        rw [mlookup_madjust] at hs'
        by_cases h : sessionID = sid'
        · subst h
          rw [hs, if_pos rfl, Option.map_some'] at hs'
          injection hs' with hs'
          rw [← hs']
          exact nodup_mkeys_minsert _ _ (hWF.ndSC _ _ hs)
        · rw [if_neg h] at hs'
          exact hWF.ndSC _ _ hs'
      · intro k c hg
        rw [mlookup_minsert] at hg
        by_cases hk : freshClientID = k
        · rw [if_pos hk] at hg
          injection hg with hg
          rw [← hg]
          exact hk
        · rw [if_neg hk] at hg
          exact hWF.cidEq _ _ hg
      · intro sid' s' hs'
        rw [mlookup_madjust] at hs'
        by_cases h : sessionID = sid'
        · subst h
          rw [hs, if_pos rfl, Option.map_some'] at hs'
          injection hs' with hs'
          intro k c'
          rw [← hs']
          dsimp only
          rw [mlookup_minsert, mlookup_minsert]
          by_cases hk : freshClientID = k
          · rw [if_pos hk, if_pos hk]
            constructor
            · intro h'
              injection h' with h'
              exact ⟨by rw [h'], by rw [← h']⟩
            · exact fun h' => h'.1
          · rw [if_neg hk, if_neg hk]
            exact hWF.link _ _ hs k c'
        · rw [if_neg h] at hs'
          intro k c'
          rw [mlookup_minsert]
          by_cases hk : freshClientID = k
          · rw [if_pos hk]
            constructor
            · intro hmem
              rcases (hWF.link _ _ hs' k c').mp hmem with ⟨hg, _⟩
              rw [← hk, hfresh] at hg
              cases hg
            · rintro ⟨hc', hsid⟩
              injection hc' with hc'
              rw [← hc'] at hsid
              exact absurd hsid h
          · rw [if_neg hk]
            exact hWF.link _ _ hs' k c'
      · intro k c' hg
        rw [mlookup_minsert] at hg
        by_cases hk : freshClientID = k
        · rw [if_pos hk] at hg
          injection hg with hg
          rw [← hg]
          dsimp only
          rw [mlookup_madjust, if_pos rfl, hs, Option.map_some']
          exact ⟨_, rfl⟩
        · rw [if_neg hk] at hg
          obtain ⟨s'', hs''⟩ := hWF.owner _ _ hg
          rw [mlookup_madjust]
          by_cases h : sessionID = c'.sessionId
          · rw [if_pos h, ← h, hs, Option.map_some']
            exact ⟨_, rfl⟩
          · rw [if_neg h]
            exact ⟨s'', hs''⟩

theorem WF_cleanup {st : InMemoryStore} (hWF : WF st) {cid : String} {c : Client}
    (hc : mlookup st.clients cid = some c) :
    WF (handleMessagesCleanup st c c.sessionId).1 := by
  have hcid : c.id = cid := hWF.cidEq _ _ hc
  unfold handleMessagesCleanup
  refine ⟨?_, nodup_mkeys_merase _ hWF.ndC, ?_, ?_, ?_, ?_⟩
  · rw [mkeys_madjust]
    exact hWF.ndS
  · intro sid' s' hs'
    rw [mlookup_madjust] at hs'
    by_cases h : c.sessionId = sid'
    · rw [if_pos h] at hs'
      cases hso : mlookup st.sessions sid' with
      | none => rw [hso] at hs'; cases hs'
      | some s =>
          rw [hso, Option.map_some'] at hs'
          injection hs' with hs'
          rw [← hs']
          exact nodup_mkeys_merase _ (hWF.ndSC _ _ hso)
    · rw [if_neg h] at hs'
      exact hWF.ndSC _ _ hs'
  · intro k c' hg
    rw [mlookup_merase] at hg
    by_cases hk : c.id = k
    · rw [if_pos hk] at hg; cases hg
    · rw [if_neg hk] at hg
      exact hWF.cidEq _ _ hg
  · intro sid' s' hs'
    rw [mlookup_madjust] at hs'
    by_cases h : c.sessionId = sid'
    · rw [if_pos h] at hs'
      cases hso : mlookup st.sessions sid' with
      | none => rw [hso] at hs'; cases hs'
      | some s =>
          rw [hso, Option.map_some'] at hs'
          injection hs' with hs'
          intro k c'
          rw [← hs']
          dsimp only
          rw [mlookup_merase, mlookup_merase]
          by_cases hk : c.id = k
          · rw [if_pos hk, if_pos hk]
            simp
          · rw [if_neg hk, if_neg hk]
            exact hWF.link _ _ hso k c'
    · rw [if_neg h] at hs'
      intro k c'
      rw [mlookup_merase]
      by_cases hk : c.id = k
      · rw [if_pos hk]
        constructor
        · intro hmem
          rcases (hWF.link _ _ hs' k c').mp hmem with ⟨hg, hsid⟩
          rw [← hk, hcid, hc] at hg
          injection hg with hg
          rw [← hg] at hsid
          exact absurd hsid h
        · rintro ⟨hg, _⟩
          cases hg
      · rw [if_neg hk]
        exact hWF.link _ _ hs' k c'
  · intro k c' hg
    rw [mlookup_merase] at hg
    by_cases hk : c.id = k
    · rw [if_pos hk] at hg; cases hg
    · rw [if_neg hk] at hg
      obtain ⟨s'', hs''⟩ := hWF.owner _ _ hg
      rw [mlookup_madjust]
      by_cases h : c.sessionId = c'.sessionId
      · rw [if_pos h, ← h]
        rw [← h] at hs''
        rw [hs'', Option.map_some']
        exact ⟨_, rfl⟩
      · rw [if_neg h]
        exact ⟨s'', hs''⟩

theorem WF_deleteSession {st : InMemoryStore} (hWF : WF st) (sid : String) :
    WF (deleteSession st sid).1 := by
  cases hs : mlookup st.sessions sid with
  | none => simpa [deleteSession, hs] using hWF
  | some s =>
      have hclosed : s.clients.map (fun p => p.2.id) = mkeys s.clients := by
        apply List.map_congr_left
        intro q hq
        have hql : mlookup s.clients q.1 = some q.2 :=
          mlookup_of_mem_nodup (hWF.ndSC _ _ hs) hq
        exact hWF.cidEq _ _ ((hWF.link _ _ hs _ _).mp hql).1
      unfold deleteSession
      rw [hs]
      refine ⟨nodup_mkeys_merase _ hWF.ndS, nodup_mkeys_meraseAll _ hWF.ndC,
        ?_, ?_, ?_, ?_⟩
      · intro sid' s' hs'
        rw [mlookup_merase] at hs'
        by_cases h : sid = sid'
        · rw [if_pos h] at hs'; cases hs'
        · rw [if_neg h] at hs'
          exact hWF.ndSC _ _ hs'
      · intro k c' hg
        rw [mlookup_meraseAll] at hg
        by_cases hk : k ∈ s.clients.map (fun p => p.2.id)
        · rw [if_pos hk] at hg; cases hg
        · rw [if_neg hk] at hg
          exact hWF.cidEq _ _ hg
      · intro sid' s' hs'
        rw [mlookup_merase] at hs'
        by_cases h : sid = sid'
        · rw [if_pos h] at hs'; cases hs'
        · rw [if_neg h] at hs'
          intro k c'
          rw [mlookup_meraseAll]
          by_cases hk : k ∈ s.clients.map (fun p => p.2.id)
          · rw [if_pos hk]
            constructor
            · intro hmem
              rcases (hWF.link _ _ hs' k c').mp hmem with ⟨hg, hsid⟩
              rw [hclosed] at hk
              obtain ⟨v, hv⟩ := mlookup_isSome_of_mem_mkeys hk
              rcases (hWF.link _ _ hs k v).mp hv with ⟨hg', hsid'⟩
              rw [hg] at hg'
              injection hg' with hg'
              rw [← hg'] at hsid'
              rw [hsid'] at hsid
              exact absurd hsid h
            · rintro ⟨hg, _⟩
              cases hg
          · rw [if_neg hk]
            exact hWF.link _ _ hs' k c'
      · intro k c' hg
        rw [mlookup_meraseAll] at hg
        by_cases hk : k ∈ s.clients.map (fun p => p.2.id)
        · rw [if_pos hk] at hg; cases hg
        · rw [if_neg hk] at hg
          have hsid : c'.sessionId ≠ sid := by
            intro heq
            have hmem : mlookup s.clients k = some c' :=
              (hWF.link _ _ hs k c').mpr ⟨hg, heq⟩
            exact hk (hclosed ▸ mem_mkeys_of_mlookup hmem)
          obtain ⟨s'', hs''⟩ := hWF.owner _ _ hg
          refine ⟨s'', ?_⟩
          rw [mlookup_merase, if_neg (fun h => hsid h.symm)]
          exact hs''

theorem WF_step {st : InMemoryStore} (hWF : WF st) {op : Op}
    (hop : opFresh st op) : WF (stepState st op) := by
  cases op with
  | create n i t => exact WF_createSession hWF n i t hop
  | join sid cid => exact WF_handleWebSocket hWF sid cid hop
  | leave cid =>
      cases hc : mlookup st.clients cid with
      | none => simpa [stepState, hc] using hWF
      | some c => simpa [stepState, hc] using WF_cleanup hWF hc
  | delete sid => exact WF_deleteSession hWF sid

theorem WF_run : ∀ (ops : List Op) (st : InMemoryStore), WF st →
    runFresh st ops → WF (ops.foldl stepState st)
  | [], _, hWF, _ => hWF
  | _ :: rest, _, hWF, hrf => WF_run rest _ (WF_step hWF hrf.1) hrf.2

theorem merase_of_mlookup_none {α : Type} {m : Map α} {k : String}
    (h : mlookup m k = none) : merase m k = m := by
  induction m with
  | nil => rfl
  | cons hd tl ih =>
      obtain ⟨k₀, v₀⟩ := hd
      by_cases h₀ : k₀ = k
      · subst h₀; simp [mlookup] at h
      · rw [mlookup, if_neg h₀] at h
        rw [merase, if_neg h₀, ih h]

theorem madjust_congr_id {α : Type} {m : Map α} {k : String} {f : α → α}
    (h : ∀ q ∈ m, q.1 = k → f q.2 = q.2) : madjust m k f = m := by
  induction m with
  | nil => rfl
  | cons hd tl ih =>
      obtain ⟨k₀, v₀⟩ := hd
      by_cases h₀ : k₀ = k
      · rw [madjust, if_pos h₀, h (k₀, v₀) (List.mem_cons_self _ _) h₀,
          ih (fun q hq hk => h q (List.mem_cons_of_mem _ hq) hk)]
      · rw [madjust, if_neg h₀, ih (fun q hq hk => h q (List.mem_cons_of_mem _ hq) hk)]

/-- Every `screen_data` relay delivery excludes the sender and carries a
`screen_data` message with the sender's id. -/
theorem relayAll_deliveries {st : InMemoryStore} {c : Client} {sid : String} :
    ∀ (l : List String), ∀ d ∈ relayAll st c sid l,
      (∃ data, d.msg = screenDataMsg c.id data) ∧ d.recipient ≠ c.id := by
  intro l
  induction l with
  | nil => simp [relayAll]
  | cons data rest ih =>
      intro d hd
      rw [relayAll] at hd
      rcases List.mem_append.mp hd with hd | hd
      · unfold relayOnce broadcastToSession at hd
        cases hso : mlookup st.sessions sid with
        | none => rw [hso] at hd; cases hd
        | some s =>
            rw [hso] at hd
            obtain ⟨hmsg, _, hne⟩ := mem_deliveries hd
            exact ⟨⟨data, hmsg⟩, hne⟩
      · exact ih d hd

/-! ## Concrete sample data used by the witnesses -/

def demoClient1 : Client := ⟨"id_c1", "", "id_s1"⟩
def demoClient2 : Client := ⟨"id_c2", "", "id_s1"⟩
def demoClient3 : Client := ⟨"id_c3", "", "id_s2"⟩

def demoSession1 : Session :=
  ⟨"id_s1", "Demo", 0, [("id_c1", demoClient1), ("id_c2", demoClient2)]⟩

def demoSession2 : Session := ⟨"id_s2", "Other", 0, [("id_c3", demoClient3)]⟩

def demoStore : InMemoryStore :=
  ⟨[("id_s1", demoSession1), ("id_s2", demoSession2)],
   [("id_c1", demoClient1), ("id_c2", demoClient2), ("id_c3", demoClient3)]⟩

/-- A store in which session `id_s1` is live with one member `id_b`,
while the handle `⟨id_a, id_s1⟩` is no longer registered (as after a
delete of `id_s1` followed by a colliding re-create, or fed directly to
the handlers). -/
def staleStore : InMemoryStore :=
  ⟨[("id_s1", ⟨"id_s1", "Demo", 0, [("id_b", ⟨"id_b", "", "id_s1"⟩)]⟩)],
   [("id_b", ⟨"id_b", "", "id_s1"⟩)]⟩

def staleSender : Client := ⟨"id_a", "", "id_s1"⟩

def collideStore : InMemoryStore :=
  ⟨[("id_AAAAAAAA", ⟨"id_AAAAAAAA", "Old", 0, []⟩)], []⟩

def demoOps : List Op :=
  [.create "Demo" "id_aaaaaaaa" 0,
   .join "id_aaaaaaaa" "id_c1aaaaaa",
   .join "id_aaaaaaaa" "id_c2aaaaaa",
   .leave "id_c1aaaaaa",
   .create "Other" "id_bbbbbbbb" 1,
   .join "id_bbbbbbbb" "id_c3aaaaaa",
   .delete "id_aaaaaaaa"]

/-! ## Claims -/

/-- C1: a payload relayed from a participant `sender` that is a member of
the session stored under `sid` is wrapped in a `screen_data` event
carrying the sender's id and the payload, and that event is attempted
exactly once to every participant of the session other than the sender,
only to such participants, and to no participant of any session stored
under a different id. -/
theorem relay_reaches_others_exactly_once
    (st : InMemoryStore) (S : Session) (sid : String) (sender : Client)
    (data : String)
    (hs : mlookup st.sessions sid = some S)
    (hnd : (mkeys S.clients).Nodup)
    (hA : sender.id ∈ mkeys S.clients)
    (hdisj : ∀ p ∈ st.sessions, p.1 ≠ sid → ∀ k, k ∈ mkeys (p.2).clients →
      k ∉ mkeys S.clients) :
    (∀ k, k ∈ mkeys S.clients → k ≠ sender.id →
      (relayOnce st sender sid data).count
        (Delivery.mk k (screenDataMsg sender.id data)) = 1) ∧
    (∀ d ∈ relayOnce st sender sid data,
      d.msg = screenDataMsg sender.id data ∧
      d.recipient ∈ mkeys S.clients ∧ d.recipient ≠ sender.id) ∧
    (∀ p ∈ st.sessions, p.1 ≠ sid → ∀ k, k ∈ mkeys (p.2).clients →
      ∀ d ∈ relayOnce st sender sid data, d.recipient ≠ k) := by
  unfold relayOnce broadcastToSession
  rw [hs]
  refine ⟨?_, ?_, ?_⟩
  · intro k hk hke
    exact count_deliveries_one _ hnd hk hke
  · intro d hd
    exact mem_deliveries hd
  · intro p hp hpne k hk d hd heq
    exact hdisj p hp hpne k hk (heq ▸ (mem_deliveries hd).2.1)

theorem relay_reaches_others_exactly_once_witness :
    (relayOnce demoStore demoClient1 "id_s1" "ping").count
      (Delivery.mk "id_c2" (screenDataMsg demoClient1.id "ping")) = 1 :=
  (relay_reaches_others_exactly_once demoStore demoSession1 "id_s1" demoClient1
    "ping" (by decide) (by decide) (by decide) (by decide)).1 "id_c2"
    (by decide) (by decide)

/-- C5: a join offered for a session id that is not in the registry is
answered `NotFound`; no client entry is created in either map, no event
is sent, and the store is returned unchanged (in the source the 404 is
written before the upgrade, so no stream ever comes into existence on
this path). -/
theorem join_nonexistent_session_notFound
    (st : InMemoryStore) (sid cid : String)
    (habs : mlookup st.sessions sid = none) :
    handleWebSocket st sid cid = (st, JoinResult.notFound, []) := by
  unfold handleWebSocket
  rw [habs]

theorem join_nonexistent_session_notFound_witness :
    handleWebSocket demoStore "id_sX" "id_c9" =
      (demoStore, JoinResult.notFound, []) :=
  join_nonexistent_session_notFound demoStore "id_sX" "id_c9" (by decide)

/-- C7 counterexample: the claim says a relay whose sender id is no
longer in the registry delivers no event to anyone, but
`broadcastToSession` checks only the session id: with sender `id_a`
absent from the client index and session `id_s1` live with member
`id_b`, the relay still delivers the `screen_data` event to `id_b`. -/
theorem relay_after_sender_removed_still_delivers :
    mlookup staleStore.clients staleSender.id = none ∧
    relayOnce staleStore staleSender "id_s1" "x" =
      [Delivery.mk "id_b" (screenDataMsg "id_a" "x")] := by
  decide

/-- C7 amended: relay consults only the session id it carries.  When
that id no longer maps to a session in the registry the payload is
silently dropped — no error, no delivery to anyone (the registry is
never mutated by a relay, which only reads).  The sender's own presence
in the registry is not checked: if the session id is still live, the
payload is delivered to that session's current members other than the
sender id. -/
theorem relay_session_absent_drops
    (st : InMemoryStore) (sender : Client) (sid data : String)
    (habs : mlookup st.sessions sid = none) :
    relayOnce st sender sid data = [] := by
  unfold relayOnce broadcastToSession
  rw [habs]

theorem relay_session_absent_drops_witness :
    relayOnce demoStore demoClient1 "id_sX" "ping" = [] :=
  relay_session_absent_drops demoStore demoClient1 "id_sX" "ping" (by decide)

/-- C4 counterexample: the claim says a leave for an id already absent
from the registry has no effect beyond the maps and emits no duplicate
`client_left`, but the deferred cleanup broadcasts unconditionally: with
handle `⟨id_a, id_s1⟩` absent from the registry and session `id_s1` live
with member `id_b`, the leave still emits `client_left{id_a}` to
`id_b`. -/
theorem leave_absent_still_broadcasts :
    mlookup staleStore.clients staleSender.id = none ∧
    (handleMessagesCleanup staleStore staleSender "id_s1").2.1 =
      [Delivery.mk "id_b" (clientLeftMsg "id_a")] := by
  decide

/-- C4 amended: leave for a participant-id absent from the registry (its
id in neither the global index nor any session entry under its session
id) leaves the sessions map and the client index unchanged and closes
only its own stream, but the `client_left` broadcast is not suppressed:
it is still sent to the current members of the session id the handle
carries (hence to nobody exactly when that session id is absent).  Only
the map updates are idempotent; the broadcast can repeat. -/
theorem leave_absent_state_noop
    (st : InMemoryStore) (c : Client) (sid : String)
    (habsG : mlookup st.clients c.id = none)
    (habsS : ∀ q ∈ st.sessions, q.1 = sid → mlookup (q.2).clients c.id = none) :
    (handleMessagesCleanup st c sid).1 = st ∧
    (handleMessagesCleanup st c sid).2.2 = [c.id] ∧
    (handleMessagesCleanup st c sid).2.1 =
      broadcastToSession st sid (clientLeftMsg c.id) "" := by
  have hsN : madjust st.sessions sid
      (fun s => { s with clients := merase s.clients c.id }) = st.sessions := by
    apply madjust_congr_id
    intro q hq hk
    rw [merase_of_mlookup_none (habsS q hq hk)]
  have hcN : merase st.clients c.id = st.clients := merase_of_mlookup_none habsG
  unfold handleMessagesCleanup
  dsimp only
  rw [hsN, hcN]
  exact ⟨rfl, rfl, rfl⟩

theorem leave_absent_state_noop_witness :
    (handleMessagesCleanup staleStore staleSender "id_s1").1 = staleStore :=
  (leave_absent_state_noop staleStore staleSender "id_s1"
    (by decide) (by decide)).1

/-- C3: deleting a stored session succeeds with 204, closes the stream
of every one of its participants (and no others), removes the session
from the sessions map and all its participants from the global index,
and leaves no entry bound to the deleted session id in either map.  The
side hypotheses (member values carry their own key as id, and every
global entry for this session id is listed in the session's map) hold in
every store reachable from empty, by `WF_run`. -/
theorem deleteSession_closes_all_and_clears
    (st : InMemoryStore) (sid : String) (S : Session)
    (hs : mlookup st.sessions sid = some S)
    (hids : ∀ q ∈ S.clients, (q.2).id = q.1)
    (hcov : ∀ q ∈ st.clients, (q.2).sessionId = sid → q.1 ∈ mkeys S.clients) :
    (deleteSession st sid).2.1 = DeleteResult.noContent ∧
    (deleteSession st sid).2.2 = mkeys S.clients ∧
    mlookup (deleteSession st sid).1.sessions sid = none ∧
    (∀ k, k ∈ mkeys S.clients →
      mlookup (deleteSession st sid).1.clients k = none) ∧
    (∀ k c, mlookup (deleteSession st sid).1.clients k = some c →
      c.sessionId ≠ sid) := by
  have hclosed : S.clients.map (fun p => p.2.id) = mkeys S.clients := by
    unfold mkeys
    exact List.map_congr_left hids
  unfold deleteSession
  rw [hs]
  dsimp only
  refine ⟨rfl, hclosed, ?_, ?_, ?_⟩
  · rw [mlookup_merase, if_pos rfl]
  · intro k hk
    rw [← hclosed] at hk
    rw [mlookup_meraseAll, if_pos hk]
  · intro k c hlk heq
    rw [mlookup_meraseAll] at hlk
    by_cases hkin : k ∈ S.clients.map (fun p => p.2.id)
    · rw [if_pos hkin] at hlk; cases hlk
    · rw [if_neg hkin] at hlk
      have hk : k ∈ mkeys S.clients := hcov _ (mem_of_mlookup hlk) heq
      rw [← hclosed] at hk
      exact hkin hk

theorem deleteSession_closes_all_and_clears_witness :
    (deleteSession demoStore "id_s1").2.2 = mkeys demoSession1.clients :=
  (deleteSession_closes_all_and_clears demoStore "id_s1" demoSession1
    (by decide) (by decide) (by decide)).2.1

/-- C10: deleting a stored session leaves every session stored under a
different id untouched (the lookup result, hence id, name, createdAt
and participant map, is unchanged), keeps every global client entry
whose sessionId differs from the deleted id, and adds nothing: every
entry of the resulting client index was already present.  The side
hypothesis (a client of a different session is not listed among the
deleted session's member ids) holds in every store reachable from
empty, by `WF_run`. -/
theorem deleteSession_frame
    (st : InMemoryStore) (sid : String) (S : Session)
    (hs : mlookup st.sessions sid = some S)
    (hnocross : ∀ q ∈ st.clients, (q.2).sessionId ≠ sid →
      q.1 ∉ S.clients.map (fun p => p.2.id)) :
    (∀ sid', sid' ≠ sid →
      mlookup (deleteSession st sid).1.sessions sid' =
        mlookup st.sessions sid') ∧
    (∀ k c, mlookup st.clients k = some c → c.sessionId ≠ sid →
      mlookup (deleteSession st sid).1.clients k = some c) ∧
    (∀ k c, mlookup (deleteSession st sid).1.clients k = some c →
      mlookup st.clients k = some c) := by
  unfold deleteSession
  rw [hs]
  dsimp only
  refine ⟨?_, ?_, ?_⟩
  · intro sid' hne
    rw [mlookup_merase, if_neg (fun h => hne h.symm)]
  · intro k c hlk hne
    rw [mlookup_meraseAll, if_neg (hnocross _ (mem_of_mlookup hlk) hne)]
    exact hlk
  · intro k c hlk
    rw [mlookup_meraseAll] at hlk
    by_cases hkin : k ∈ S.clients.map (fun p => p.2.id)
    · rw [if_pos hkin] at hlk; cases hlk
    · rw [if_neg hkin] at hlk
      exact hlk

theorem deleteSession_frame_witness :
    mlookup (deleteSession demoStore "id_s1").1.sessions "id_s2" =
      mlookup demoStore.sessions "id_s2" :=
  (deleteSession_frame demoStore "id_s1" demoSession1
    (by decide) (by decide)).1 "id_s2" (by decide)

theorem filter_ne_of_absent {α : Type} {m : Map α} {e : String}
    (h : mlookup m e = none) : m.filter (fun p => p.1 ≠ e) = m := by
  apply List.filter_eq_self.mpr
  intro a ha
  simpa using mlookup_none_forall h a ha

/-- The delivery list of a successful join, in send order: the
`session_joined` to the new client, then the `client_joined` broadcast
over the updated membership minus the new client. -/
theorem handleWebSocket_deliveries
    {st : InMemoryStore} {sid cid : String} {S : Session}
    (hs : mlookup st.sessions sid = some S)
    (hfresh : mlookup S.clients cid = none) :
    (handleWebSocket st sid cid).2.2 =
      Delivery.mk cid (sessionJoinedMsg sid cid) ::
        (S.clients.filter (fun p => p.1 ≠ cid)).map
          (fun p => Delivery.mk p.1 (clientJoinedMsg cid)) := by
  unfold handleWebSocket
  rw [hs]
  dsimp only
  unfold broadcastToSession
  rw [mlookup_madjust, if_pos rfl, hs, Option.map_some']
  dsimp only
  congr 1
  rw [minsert_of_mlookup_none hfresh, List.filter_append]
  simp

/-- C6: a successful join sends exactly one `session_joined` event
(carrying the session id and the new participant's id) and it goes to
the joining client only, and exactly one `client_joined` event (carrying
the new participant's id) to every participant the session had before
the join — these are the other members, since the fresh id is not among
them — and to no one else. -/
theorem join_success_events
    (st : InMemoryStore) (sid cid : String) (S : Session)
    (hs : mlookup st.sessions sid = some S)
    (hnd : (mkeys S.clients).Nodup)
    (hfresh : mlookup S.clients cid = none) :
    (handleWebSocket st sid cid).2.1 = JoinResult.joined ⟨cid, "", sid⟩ ∧
    cid ∉ mkeys S.clients ∧
    ((handleWebSocket st sid cid).2.2).count
      (Delivery.mk cid (sessionJoinedMsg sid cid)) = 1 ∧
    (∀ d ∈ (handleWebSocket st sid cid).2.2,
      d.msg = sessionJoinedMsg sid cid → d.recipient = cid) ∧
    (∀ k, k ∈ mkeys S.clients →
      ((handleWebSocket st sid cid).2.2).count
        (Delivery.mk k (clientJoinedMsg cid)) = 1) ∧
    (∀ d ∈ (handleWebSocket st sid cid).2.2,
      d.msg = clientJoinedMsg cid →
      d.recipient ∈ mkeys S.clients ∧ d.recipient ≠ cid) := by
  have hres : (handleWebSocket st sid cid).2.1 =
      JoinResult.joined ⟨cid, "", sid⟩ := by
    unfold handleWebSocket
    rw [hs]
  have hds := handleWebSocket_deliveries hs hfresh
  have hmsgne : sessionJoinedMsg sid cid ≠ clientJoinedMsg cid := by
    simp [sessionJoinedMsg, clientJoinedMsg]
  have hcid_not : cid ∉ mkeys S.clients := by
    intro h
    obtain ⟨v, hv⟩ := mlookup_isSome_of_mem_mkeys h
    rw [hfresh] at hv
    cases hv
  refine ⟨hres, hcid_not, ?_, ?_, ?_, ?_⟩
  · rw [hds, List.count_cons_self]
    have hzero : ((S.clients.filter (fun p => p.1 ≠ cid)).map
        (fun p => Delivery.mk p.1 (clientJoinedMsg cid))).count
        (Delivery.mk cid (sessionJoinedMsg sid cid)) = 0 := by
      rw [List.count_eq_zero]
      intro hmem
      have hmm := (mem_deliveries hmem).1
      simp only at hmm
      exact hmsgne hmm
    rw [hzero]
  · rw [hds]
    intro d hd hmsg
    rcases List.mem_cons.mp hd with rfl | hd
    · rfl
    · exact absurd ((mem_deliveries hd).1 ▸ hmsg) hmsgne.symm
  · intro k hk
    rw [hds, List.count_cons_of_ne
      (fun h => by injection h with h1 h2; exact hmsgne h2.symm)]
    exact count_deliveries_one _ hnd hk (fun h => hcid_not (h ▸ hk))
  · rw [hds]
    intro d hd hmsg
    rcases List.mem_cons.mp hd with rfl | hd
    · exact absurd hmsg hmsgne
    · exact ⟨(mem_deliveries hd).2.1, (mem_deliveries hd).2.2⟩

theorem join_success_events_witness :
    ((handleWebSocket demoStore "id_s1" "id_c9").2.2).count
      (Delivery.mk "id_c1" (clientJoinedMsg "id_c9")) = 1 :=
  (join_success_events demoStore "id_s1" "id_c9" demoSession1
    (by decide) (by decide) (by decide)).2.2.2.2.1 "id_c1" (by decide)

/-- C9 counterexample: `generateID` output is never checked against the
sessions map.  With session id `id_AAAAAAAA` already stored and the
random part drawn as `AAAAAAAA`, createSession still succeeds and the
old session is overwritten — the allocated id was not unique. -/
theorem createSession_id_collision_overwrites :
    mlookup collideStore.sessions (generateID "AAAAAAAA") =
      some ⟨"id_AAAAAAAA", "Old", 0, []⟩ ∧
    (createSession collideStore "New" (generateID "AAAAAAAA") 5).2 =
      CreateResult.created ⟨"id_AAAAAAAA", "New", 5, []⟩ ∧
    mlookup (createSession collideStore "New" (generateID "AAAAAAAA") 5).1.sessions
      "id_AAAAAAAA" = some ⟨"id_AAAAAAAA", "New", 5, []⟩ := by
  decide

/-- C9 amended: createSession with a non-empty name always succeeds,
initializes an empty participant mapping, stores the session under the
generated id and returns it; it fails (400) exactly on an empty or
missing name.  The generated id is not checked for uniqueness: the
session is written over whatever the id keyed before; only when the id
is fresh is it a new entry leaving all other sessions unchanged. -/
theorem createSession_spec
    (st : InMemoryStore) (reqName freshID : String) (now : Int) :
    (reqName = "" ↔
      (createSession st reqName freshID now).2 = CreateResult.badRequest) ∧
    (reqName = "" → (createSession st reqName freshID now).1 = st) ∧
    (reqName ≠ "" →
      (createSession st reqName freshID now).2 =
        CreateResult.created ⟨freshID, reqName, now, []⟩ ∧
      (createSession st reqName freshID now).1.clients = st.clients ∧
      mlookup (createSession st reqName freshID now).1.sessions freshID =
        some ⟨freshID, reqName, now, []⟩ ∧
      (∀ sid, sid ≠ freshID →
        mlookup (createSession st reqName freshID now).1.sessions sid =
          mlookup st.sessions sid)) := by
  by_cases h : reqName = ""
  · unfold createSession
    rw [if_pos h]
    exact ⟨⟨fun _ => rfl, fun _ => h⟩, fun _ => rfl, fun hne => absurd h hne⟩
  · unfold createSession
    rw [if_neg h]
    refine ⟨⟨fun he => absurd he h, fun hc => ?_⟩, fun he => absurd he h,
      fun _ => ⟨rfl, rfl, ?_, ?_⟩⟩
    · simp at hc
    · rw [mlookup_minsert, if_pos rfl]
    · intro sid hne
      rw [mlookup_minsert, if_neg (fun hcontr => hne hcontr.symm)]

theorem createSession_spec_witness :
    (createSession demoStore "Room" (generateID "zzzzzzzz") 7).2 =
      CreateResult.created ⟨"id_zzzzzzzz", "Room", 7, []⟩ :=
  ((createSession_spec demoStore "Room" (generateID "zzzzzzzz") 7).2.2
    (by decide)).1

/-- C8: whenever a connection's read loop terminates — after relaying
any (possibly empty) sequence of successfully read messages, ending in a
read error or stream closure — the deferred cleanup runs once: it closes
exactly that client's stream, removes the id from the global index and
from its session's map, and `client_left` with the departing id is
attempted exactly once to every remaining member of the session and to
nobody else (relay deliveries are all `screen_data`, so they never
account for a `client_left`). -/
theorem receiveLoop_cleanup_runs
    (st : InMemoryStore) (c : Client) (sid : String) (S : Session)
    (inbound : List String)
    (hs : mlookup st.sessions sid = some S)
    (hnd : (mkeys S.clients).Nodup)
    (hmem : mlookup S.clients c.id = some c)
    (hne : ∀ k, k ∈ mkeys S.clients → k ≠ "") :
    (handleMessages st c sid inbound).2.2 = [c.id] ∧
    mlookup (handleMessages st c sid inbound).1.clients c.id = none ∧
    (∀ S', mlookup (handleMessages st c sid inbound).1.sessions sid = some S' →
      mlookup S'.clients c.id = none) ∧
    (∀ k, k ∈ mkeys S.clients → k ≠ c.id →
      ((handleMessages st c sid inbound).2.1).count
        (Delivery.mk k (clientLeftMsg c.id)) = 1) ∧
    (∀ d ∈ (handleMessages st c sid inbound).2.1,
      d.msg = clientLeftMsg c.id →
      d.recipient ∈ mkeys S.clients ∧ d.recipient ≠ c.id) := by
  have hmsgne : ∀ a b : String, screenDataMsg c.id a ≠ clientLeftMsg b := by
    intro a b
    simp [screenDataMsg, clientLeftMsg]
  have hlook1 : mlookup (handleMessages st c sid inbound).1.sessions sid =
      some { S with clients := merase S.clients c.id } := by
    unfold handleMessages handleMessagesCleanup
    dsimp only
    rw [mlookup_madjust, if_pos rfl, hs, Option.map_some']
  have hcleanupDs : (handleMessagesCleanup st c sid).2.1 =
      ((merase S.clients c.id).filter (fun p => p.1 ≠ "")).map
        (fun p => Delivery.mk p.1 (clientLeftMsg c.id)) := by
    unfold handleMessagesCleanup broadcastToSession
    dsimp only
    rw [mlookup_madjust, if_pos rfl, hs, Option.map_some']
  have hds : (handleMessages st c sid inbound).2.1 =
      relayAll st c sid inbound ++
        ((merase S.clients c.id).filter (fun p => p.1 ≠ "")).map
          (fun p => Delivery.mk p.1 (clientLeftMsg c.id)) := by
    unfold handleMessages
    dsimp only
    rw [hcleanupDs]
  refine ⟨rfl, ?_, ?_, ?_, ?_⟩
  · show mlookup (merase st.clients c.id) c.id = none
    rw [mlookup_merase, if_pos rfl]
  · intro S' hS'
    rw [hlook1] at hS'
    injection hS' with hS'
    rw [← hS']
    dsimp only
    rw [mlookup_merase, if_pos rfl]
  · intro k hk hkc
    rw [hds, List.count_append]
    have hzero : (relayAll st c sid inbound).count
        (Delivery.mk k (clientLeftMsg c.id)) = 0 := by
      rw [List.count_eq_zero]
      intro hmem'
      obtain ⟨⟨data, hdata⟩, _⟩ := relayAll_deliveries inbound _ hmem'
      simp only at hdata
      exact hmsgne data c.id hdata.symm
    rw [hzero]
    have hk' : k ∈ mkeys (merase S.clients c.id) := by
      rw [mkeys_merase]
      exact List.mem_filter.mpr ⟨hk, by simpa using hkc⟩
    rw [count_deliveries_one _ (nodup_mkeys_merase _ hnd) hk' (hne k hk)]
  · intro d hd hmsg
    rw [hds] at hd
    rcases List.mem_append.mp hd with hd | hd
    · obtain ⟨⟨data, hdata⟩, _⟩ := relayAll_deliveries inbound d hd
      rw [hmsg] at hdata
      exact absurd hdata.symm (hmsgne data c.id)
    · have h1 := (mem_deliveries hd).2.1
      rw [mkeys_merase] at h1
      obtain ⟨h1m, h1ne⟩ := List.mem_filter.mp h1
      exact ⟨h1m, by simpa using h1ne⟩

theorem receiveLoop_cleanup_runs_witness :
    ((handleMessages demoStore demoClient1 "id_s1" ["f1", "f2"]).2.1).count
      (Delivery.mk "id_c2" (clientLeftMsg demoClient1.id)) = 1 :=
  (receiveLoop_cleanup_runs demoStore demoClient1 "id_s1" demoSession1
    ["f1", "f2"] (by decide) (by decide) (by decide) (by decide)).2.2.2.1
    "id_c2" (by decide) (by decide)

/-- C2: after any sequence of registry operations applied to the empty
registry — joins, leaves and deletes, plus the session creations that
make them non-vacuous — in which every generated id is fresh at its use,
the registry invariant holds: the key set of every stored session's
participant map coincides with the set of global-index entries whose
sessionId is that session's key (with identical client values), and
every global-index entry belongs to a session present in the registry,
namely the one its sessionId names, which lists it. -/
theorem registry_invariant_after_ops
    (ops : List Op) (hfr : runFresh NewInMemoryStore ops) :
    (∀ p ∈ (runOps ops).sessions, ∀ k : String,
      (∃ c, mlookup (p.2).clients k = some c) ↔
      (∃ c, mlookup (runOps ops).clients k = some c ∧ c.sessionId = p.1)) ∧
    (∀ q ∈ (runOps ops).clients,
      ∃ p ∈ (runOps ops).sessions, (q.2).sessionId = p.1 ∧
        mlookup (p.2).clients q.1 = some q.2) := by
  have hWF : WF (runOps ops) := WF_run ops NewInMemoryStore WF_empty hfr
  constructor
  · intro p hp k
    have hlp : mlookup (runOps ops).sessions p.1 = some p.2 :=
      mlookup_of_mem_nodup hWF.ndS hp
    constructor
    · rintro ⟨c, hc⟩
      exact ⟨c, (hWF.link _ _ hlp k c).mp hc⟩
    · rintro ⟨c, hc, hsid⟩
      exact ⟨c, (hWF.link _ _ hlp k c).mpr ⟨hc, hsid⟩⟩
  · intro q hq
    have hlq : mlookup (runOps ops).clients q.1 = some q.2 :=
      mlookup_of_mem_nodup hWF.ndC hq
    obtain ⟨s, hso⟩ := hWF.owner _ _ hlq
    refine ⟨((q.2).sessionId, s), mem_of_mlookup hso, rfl, ?_⟩
    exact (hWF.link _ _ hso q.1 q.2).mpr ⟨hlq, rfl⟩

theorem registry_invariant_after_ops_witness :
    (∀ p ∈ (runOps demoOps).sessions, ∀ k : String,
      (∃ c, mlookup (p.2).clients k = some c) ↔
      (∃ c, mlookup (runOps demoOps).clients k = some c ∧ c.sessionId = p.1)) ∧
    (∀ q ∈ (runOps demoOps).clients,
      ∃ p ∈ (runOps demoOps).sessions, (q.2).sessionId = p.1 ∧
        mlookup (p.2).clients q.1 = some q.2) :=
  registry_invariant_after_ops demoOps (by decide)

end Tango
